import Mathlib

/-!
Shallow embedding of `src/vec.h` (a header-only dynamic array for C).

A vector handle is a possibly-null pointer; the header (length, capacity)
lives just before the element region.  We model a handle as
`Option (Buf α)`: `none` is the null/unallocated handle, `some b` an
allocated buffer holding its `len`, `cap` and an element map.  Slots that
were never written (or whose bytes were discarded by a shrinking
`realloc`) hold `none` in the element map.
-/

/-- An allocated vector block: the two header words plus the element
region.  `data i` is the content of slot `i`; `none` models an
uninitialized slot. -/
structure Buf (α : Type) where
  len : Nat
  cap : Nat
  data : Nat → Option α

/-- A vector handle: `none` is the null (unallocated) handle. -/
abbrev Vec (α : Type) := Option (Buf α)

/-- `vec_len(v)`: `(v) ? ((size_t*)(v))[-2] : 0`. -/
def vec_len : Vec α → Nat
  | none => 0
  | some b => b.len

/-- `vec_cap(v)`: `(v) ? ((size_t*)(v))[-1] : 0`. -/
def vec_cap : Vec α → Nat
  | none => 0
  | some b => b.cap

/-- Reading slot `i` of the element region (`v[i]`); reading through the
null handle yields nothing. -/
def vec_data : Vec α → Nat → Option α
  | none, _ => none
  | some b, i => b.data i

/-- `vec_set_len(v, len)`: writes the length header word.  The C macro
does not null-check `v`; on the null handle the write is UB, modelled as
a no-op (no modelled call path reaches it with a null handle). -/
def vec_set_len : Vec α → Nat → Vec α
  | none, _ => none
  | some b, n => some { b with len := n }

/-- `(v)[i] = x`: a store into the element region.  Storing through the
null handle is UB in C; modelled as a no-op (unreachable in the modelled
call paths). -/
def vec_write : Vec α → Nat → α → Vec α
  | none, _, _ => none
  | some b, i, x => some { b with data := fun j => if j = i then some x else b.data j }

/-- `memmove((v)+dst, (v)+src, n * elemsize)`: overlap-tolerant move of
`n` element slots from `src` to `dst`.  All reads are from the original
contents, which is exactly the guarantee `memmove` gives. -/
def vec_memmove : Vec α → Nat → Nat → Nat → Vec α
  | none, _, _, _ => none
  | some b, dst, src, n =>
    some { b with data := fun j =>
      if dst ≤ j ∧ j < dst + n then b.data (src + (j - dst)) else b.data j }

/-- `vec_realloc(v, cap, len)`: calls `VEC_REALLOC` on the allocation
origin (null when `v` is null, i.e. fresh allocation), then rewrites both
header words at the new address.  The reallocation preserves the bytes of
element slots below the new capacity and leaves everything at or beyond
the new capacity unallocated/indeterminate (modelled as `none`).  The
result is always an allocated (non-null) handle: allocation failure is a
fatal assertion in the source, not a reachable outcome. -/
def vec_realloc (v : Vec α) (vcap vlen : Nat) : Buf α :=
  { len := vlen
    cap := vcap
    data := fun i => if i < vcap then vec_data v i else none }

/-- The loop of `vec_new_cap` under the default `VEC_GROW_RATE == 2`:
`for ((*(out)=(cur ? cur : 1)) ; *(out) < req ; *(out) *= 2) {}`, here
already started at `out`.  The C loop terminates only for `out ≥ 1`,
which the single caller guarantees; the guard `0 < out` makes the
function total without changing its value on any reachable input. -/
def growLoop (out req : Nat) : Nat :=
  if h : 0 < out ∧ out < req then growLoop (out * 2) req else out
termination_by req - out
decreasing_by omega

/-- `vec_new_cap(out, cur, req)` (default doubling strategy): start from
`cur` if nonzero else `1`, double until at least `req`. -/
def vec_new_cap (cur req : Nat) : Nat :=
  growLoop (if cur = 0 then 1 else cur) req

/-- `vec_grow(v, cap)`: compute the new capacity (growth strategy only
consulted when `v` is non-null and its capacity is below the request),
then `vec_realloc(v, newcap, vec_len(v))` — unconditionally. -/
def vec_grow (v : Vec α) (cap : Nat) : Buf α :=
  let reqcap := cap
  let newcap :=
    match v with
    | none => reqcap
    | some b => if b.cap < reqcap then vec_new_cap b.cap reqcap else reqcap
  vec_realloc v newcap (vec_len v)

/-- `vec_init(v, cap)`: `vec_grow((v), (cap))`. -/
def vec_init (v : Vec α) (cap : Nat) : Vec α :=
  some (vec_grow v cap)

/-- `vec_push(v, x)`.  The second component counts the `vec_realloc`
invocations the call performs (`vec_grow` always performs exactly one). -/
def vec_push (v : Vec α) (x : α) : Vec α × Nat :=
  let Vcap := vec_cap v
  let Vlen := vec_len v
  let p : Vec α × Nat :=
    if Vcap = 0 ∨ Vcap ≤ Vlen then (some (vec_grow v (Vcap + 1)), 1) else (v, 0)
  (vec_set_len (vec_write p.1 Vlen x) (Vlen + 1), p.2)

/-- `vec_pop(v)`: `vec_set_len((v), vec_len(v) - 1)` (no bounds check). -/
def vec_pop (v : Vec α) : Vec α :=
  vec_set_len v (vec_len v - 1)

/-- `vec_ins(v, i, x)`: grow to `len+1`, shift `[i, len)` one slot up
with `memmove`, bump the length, then store `x` at slot `i`. -/
def vec_ins (v : Vec α) (i : Nat) (x : α) : Vec α :=
  let Vidx := i
  let Vlen := vec_len v
  let v1 : Vec α := some (vec_grow v (Vlen + 1))
  let v2 := vec_memmove v1 (Vidx + 1) Vidx (Vlen - Vidx)
  let v3 := vec_set_len v2 (Vlen + 1)
  vec_write v3 Vidx x

/-- `vec_del(v, i)`: on a non-null handle with `i < len`, decrement the
length and shift `(i, len)` one slot down with `memmove`; otherwise a
no-op. -/
def vec_del (v : Vec α) (i : Nat) : Vec α :=
  match v with
  | none => none
  | some b =>
    let Vidx := i
    let Vlen := vec_len (some b)
    if Vidx < Vlen then
      vec_memmove (vec_set_len (some b) (Vlen - 1)) Vidx (Vidx + 1) (Vlen - Vidx - 1)
    else some b

/-- `vec_trim(v)`: on a non-null handle with `cap > len`, reallocate to
capacity exactly `len`; otherwise a no-op. -/
def vec_trim (v : Vec α) : Vec α :=
  match v with
  | none => none
  | some b =>
    if b.cap > b.len then some (vec_realloc (some b) b.len b.len) else some b

/-- `vec_clear(v)`: set the length to 0 on a non-null handle. -/
def vec_clear (v : Vec α) : Vec α :=
  match v with
  | none => none
  | some b => some { b with len := 0 }

/-- Repeated `vec_push` over a list, also accumulating how many
`vec_realloc` invocations the pushes performed. -/
def pushN (v : Vec α) : List α → Vec α × Nat
  | [] => (v, 0)
  | x :: rest =>
    let p := vec_push v x
    let q := pushN p.1 rest
    (q.1, p.2 + q.2)

/-- The live element sequence: slots `0 .. len-1` in order. -/
def vec_elems (v : Vec α) : List (Option α) :=
  (List.range (vec_len v)).map (vec_data v)

/-! ### Basic lemmas about the header codec and the growth loop -/

theorem vec_len_some (b : Buf α) : vec_len (some b) = b.len := rfl

theorem vec_cap_some (b : Buf α) : vec_cap (some b) = b.cap := rfl

theorem vec_data_some (b : Buf α) (i : Nat) : vec_data (some b) i = b.data i := rfl

theorem growLoop_of_stop (out req : Nat) (h : ¬(0 < out ∧ out < req)) :
    growLoop out req = out := by
  rw [growLoop]
  rw [dif_neg h]

theorem growLoop_step (out req : Nat) (h1 : 0 < out) (h2 : out < req) :
    growLoop out req = growLoop (out * 2) req := by
  rw [growLoop]
  rw [dif_pos ⟨h1, h2⟩]

theorem growLoop_ge (out req : Nat) (h : 1 ≤ out) : req ≤ growLoop out req := by
  induction out, req using growLoop.induct with
  | case1 out req hlt ih =>
    rw [growLoop_step out req hlt.1 hlt.2]
    exact ih (by omega)
  | case2 out req hge =>
    rw [growLoop_of_stop out req hge]
    omega

theorem growLoop_pow (k : Nat) : growLoop (2 ^ k) (2 ^ k + 1) = 2 ^ (k + 1) := by
  have h1 : (1:Nat) ≤ 2 ^ k := Nat.one_le_two_pow
  rw [growLoop_step _ _ (by omega) (by omega)]
  rw [growLoop_of_stop _ _ (by omega)]
  rw [pow_succ]

theorem vec_new_cap_ge (cur req : Nat) : req ≤ vec_new_cap cur req := by
  unfold vec_new_cap
  exact growLoop_ge _ _ (by split <;> omega)

theorem vec_new_cap_of_pow (k : Nat) : vec_new_cap (2 ^ k) (2 ^ k + 1) = 2 ^ (k + 1) := by
  have h1 : (1:Nat) ≤ 2 ^ k := Nat.one_le_two_pow
  unfold vec_new_cap
  rw [if_neg (by omega)]
  exact growLoop_pow k

/-! ### Lemmas about `vec_realloc` and `vec_grow` -/

theorem vec_realloc_len (v : Vec α) (vcap vlen : Nat) :
    (vec_realloc v vcap vlen).len = vlen := rfl

theorem vec_realloc_cap (v : Vec α) (vcap vlen : Nat) :
    (vec_realloc v vcap vlen).cap = vcap := rfl

theorem vec_realloc_data (v : Vec α) (vcap vlen i : Nat) :
    (vec_realloc v vcap vlen).data i = if i < vcap then vec_data v i else none := rfl

theorem vec_grow_len (v : Vec α) (r : Nat) : (vec_grow v r).len = vec_len v := rfl

theorem vec_grow_cap_ge (v : Vec α) (r : Nat) : r ≤ (vec_grow v r).cap := by
  cases v with
  | none => exact Nat.le_refl r
  | some b =>
    show r ≤ (if b.cap < r then vec_new_cap b.cap r else r)
    split
    · exact vec_new_cap_ge b.cap r
    · exact Nat.le_refl r

theorem vec_grow_cap_of_le (v : Vec α) (r : Nat) (h : r ≤ vec_cap v) :
    (vec_grow v r).cap = r := by
  cases v with
  | none =>
    have : r = 0 := Nat.le_zero.mp h
    simp [vec_grow, vec_realloc, this]
  | some b =>
    show (if b.cap < r then vec_new_cap b.cap r else r) = r
    rw [if_neg (by exact Nat.not_lt.mpr h)]

theorem vec_grow_data (v : Vec α) (r i : Nat) (h : i < (vec_grow v r).cap) :
    (vec_grow v r).data i = vec_data v i := by
  have : (vec_grow v r).data i = if i < (vec_grow v r).cap then vec_data v i else none := rfl
  rw [this, if_pos h]

/-! ### Pointwise lemmas about the element-level operations -/

theorem vec_data_set_len (v : Vec α) (n i : Nat) :
    vec_data (vec_set_len v n) i = vec_data v i := by
  cases v <;> rfl

theorem vec_len_set_len (b : Buf α) (n : Nat) :
    vec_len (vec_set_len (some b) n) = n := rfl

theorem vec_cap_set_len (v : Vec α) (n : Nat) :
    vec_cap (vec_set_len v n) = vec_cap v := by
  cases v <;> rfl

theorem vec_data_write (b : Buf α) (i : Nat) (x : α) (j : Nat) :
    vec_data (vec_write (some b) i x) j = if j = i then some x else b.data j := rfl

theorem vec_len_write (b : Buf α) (i : Nat) (x : α) :
    vec_len (vec_write (some b) i x) = b.len := rfl

theorem vec_cap_write (b : Buf α) (i : Nat) (x : α) :
    vec_cap (vec_write (some b) i x) = b.cap := rfl

theorem vec_data_memmove (b : Buf α) (dst src n j : Nat) :
    vec_data (vec_memmove (some b) dst src n) j =
      if dst ≤ j ∧ j < dst + n then b.data (src + (j - dst)) else b.data j := rfl

theorem vec_len_memmove (b : Buf α) (dst src n : Nat) :
    vec_len (vec_memmove (some b) dst src n) = b.len := rfl

theorem vec_cap_memmove (b : Buf α) (dst src n : Nat) :
    vec_cap (vec_memmove (some b) dst src n) = b.cap := rfl

/-! ### Characterizing `vec_push` -/

theorem vec_push_eq_pos (v : Vec α) (x : α)
    (hc : vec_cap v = 0 ∨ vec_cap v ≤ vec_len v) :
    vec_push v x =
      (vec_set_len (vec_write (some (vec_grow v (vec_cap v + 1))) (vec_len v) x)
        (vec_len v + 1), 1) := by
  simp only [vec_push, if_pos hc]

theorem vec_push_eq_neg (v : Vec α) (x : α)
    (hc : ¬(vec_cap v = 0 ∨ vec_cap v ≤ vec_len v)) :
    vec_push v x = (vec_set_len (vec_write v (vec_len v) x) (vec_len v + 1), 0) := by
  simp only [vec_push, if_neg hc]

theorem vec_grow_none_cap (r : Nat) : (vec_grow (none : Vec α) r).cap = r := rfl

theorem vec_grow_cap_succ_some (b : Buf α) :
    (vec_grow (some b) (b.cap + 1)).cap = vec_new_cap b.cap (b.cap + 1) := by
  show (if b.cap < b.cap + 1 then vec_new_cap b.cap (b.cap + 1) else b.cap + 1) = _
  rw [if_pos (Nat.lt_succ_self _)]

/-- `vec_push` on any handle satisfying the length/capacity invariant:
the length grows by one, the new last slot holds the pushed value, and
all previously live slots are unchanged. -/
theorem push_spec (v : Vec α) (x : α) (hinv : vec_len v ≤ vec_cap v) :
    vec_len (vec_push v x).1 = vec_len v + 1 ∧
    vec_data (vec_push v x).1 (vec_len v) = some x ∧
    (∀ i, i < vec_len v → vec_data (vec_push v x).1 i = vec_data v i) := by
  by_cases hc : vec_cap v = 0 ∨ vec_cap v ≤ vec_len v
  · have hlc : vec_len v = vec_cap v := by
      rcases hc with h | h
      · omega
      · omega
    rw [vec_push_eq_pos v x hc]
    have hcap : vec_cap v + 1 ≤ (vec_grow v (vec_cap v + 1)).cap :=
      vec_grow_cap_ge v (vec_cap v + 1)
    refine ⟨rfl, ?_, ?_⟩
    · rw [vec_data_set_len, vec_data_write, if_pos rfl]
    · intro i hi
      rw [vec_data_set_len, vec_data_write, if_neg (by omega)]
      exact vec_grow_data v (vec_cap v + 1) i (by omega)
  · have hne : v ≠ none := by
      intro h
      subst h
      exact hc (Or.inl rfl)
    obtain ⟨b, rfl⟩ := Option.ne_none_iff_exists'.mp hne
    rw [vec_push_eq_neg _ x hc]
    refine ⟨rfl, ?_, ?_⟩
    · rw [vec_data_set_len, vec_data_write, if_pos rfl]
    · intro i hi
      rw [vec_data_set_len, vec_data_write, if_neg (by simp [vec_len_some] at hi ⊢; omega)]
      rfl

/-- The second component of `vec_push` counts exactly one `vec_realloc`
invocation when the caller-side check fires, and zero otherwise. -/
theorem push_rc (v : Vec α) (x : α) :
    (vec_push v x).2 = if vec_cap v = 0 ∨ vec_cap v ≤ vec_len v then 1 else 0 := by
  by_cases hc : vec_cap v = 0 ∨ vec_cap v ≤ vec_len v
  · rw [vec_push_eq_pos v x hc, if_pos hc]
  · rw [vec_push_eq_neg v x hc, if_neg hc]

/-- When the capacity is positive and strictly exceeds the length,
`vec_push` performs no reallocation and keeps the capacity. -/
theorem push_no_grow (v : Vec α) (x : α) (h0 : vec_cap v ≠ 0)
    (hlt : vec_len v < vec_cap v) :
    (vec_push v x).2 = 0 ∧ vec_cap (vec_push v x).1 = vec_cap v := by
  have hc : ¬(vec_cap v = 0 ∨ vec_cap v ≤ vec_len v) := by
    intro h
    rcases h with h | h
    · exact h0 h
    · omega
  rw [vec_push_eq_neg v x hc]
  refine ⟨rfl, ?_⟩
  cases v with
  | none => rfl
  | some b => rfl

/-! ### Characterizing `vec_ins`, `vec_del`, `vec_trim`, `vec_clear` -/

theorem vec_ins_len (b : Buf α) (i : Nat) (x : α) :
    vec_len (vec_ins (some b) i x) = b.len + 1 := rfl

theorem vec_ins_cap (b : Buf α) (i : Nat) (x : α) :
    vec_cap (vec_ins (some b) i x) = (vec_grow (some b) (b.len + 1)).cap := rfl

theorem vec_ins_data (b : Buf α) (i : Nat) (x : α) (j : Nat) :
    vec_data (vec_ins (some b) i x) j =
      if j = i then some x
      else if i + 1 ≤ j ∧ j < i + 1 + (b.len - i) then
        (vec_grow (some b) (b.len + 1)).data (i + (j - (i + 1)))
      else (vec_grow (some b) (b.len + 1)).data j := rfl

theorem vec_del_eq_pos (b : Buf α) (i : Nat) (h : i < b.len) :
    vec_del (some b) i =
      vec_memmove (vec_set_len (some b) (b.len - 1)) i (i + 1) (b.len - i - 1) := by
  show (if i < b.len then _ else _) = _
  rw [if_pos h]
  rfl

theorem vec_del_eq_neg (b : Buf α) (i : Nat) (h : ¬ i < b.len) :
    vec_del (some b) i = some b := by
  show (if i < b.len then _ else _) = _
  rw [if_neg h]

theorem vec_trim_eq_pos (b : Buf α) (h : b.len < b.cap) :
    vec_trim (some b) = some (vec_realloc (some b) b.len b.len) := by
  show (if b.cap > b.len then _ else _) = _
  rw [if_pos h]

theorem vec_trim_eq_neg (b : Buf α) (h : ¬ b.len < b.cap) :
    vec_trim (some b) = some b := by
  show (if b.cap > b.len then _ else _) = _
  rw [if_neg h]

theorem vec_clear_some (b : Buf α) :
    vec_clear (some b) = some { b with len := 0 } := rfl

/-! ### Repeated pushes: capacity reuse and the doubling recurrence -/

/-- As long as the capacity can absorb all pushed elements, a sequence of
pushes performs no reallocation and leaves the capacity untouched. -/
theorem pushN_stable (xs : List α) : ∀ b : Buf α, b.len + xs.length ≤ b.cap →
    (pushN (some b) xs).2 = 0 ∧
    vec_cap (pushN (some b) xs).1 = b.cap ∧
    vec_len (pushN (some b) xs).1 = b.len + xs.length := by
  induction xs with
  | nil =>
    intro b _
    exact ⟨rfl, rfl, rfl⟩
  | cons x rest ih =>
    intro b h
    simp only [List.length_cons] at h
    have hc : ¬(vec_cap (some b) = 0 ∨ vec_cap (some b) ≤ vec_len (some b)) := by
      rw [vec_cap_some, vec_len_some]
      omega
    have hpush : vec_push (some b) x =
        (some { b with len := b.len + 1,
                       data := fun j => if j = b.len then some x else b.data j }, 0) := by
      rw [vec_push_eq_neg _ x hc]
      rfl
    have hrec := ih { b with len := b.len + 1,
                             data := fun j => if j = b.len then some x else b.data j }
      (by dsimp only; omega)
    simp only [pushN, hpush]
    refine ⟨?_, ?_, ?_⟩
    · rw [hrec.1]
    · exact hrec.2.1
    · rw [hrec.2.2]
      dsimp only
      simp only [List.length_cons]
      omega

theorem clog2_succ_of_pow (c : Nat) : Nat.clog 2 (2 ^ c + 1) = c + 1 := by
  have h0 : (1:Nat) ≤ 2 ^ c := Nat.one_le_two_pow
  have h1 : 2 ^ c + 1 ≤ 2 ^ (c + 1) := by
    rw [pow_succ]
    omega
  have hle : Nat.clog 2 (2 ^ c + 1) ≤ c + 1 :=
    (Nat.le_pow_iff_clog_le (by omega)).mp h1
  have hgt : c < Nat.clog 2 (2 ^ c + 1) :=
    (Nat.pow_lt_iff_lt_clog (by omega)).mp (Nat.lt_succ_self _)
  omega

theorem clog2_succ_of_lt (n : Nat) (_h1 : 1 ≤ n) (h2 : n < 2 ^ Nat.clog 2 n) :
    Nat.clog 2 (n + 1) = Nat.clog 2 n := by
  have hle : Nat.clog 2 (n + 1) ≤ Nat.clog 2 n :=
    (Nat.le_pow_iff_clog_le (by omega)).mp (by omega)
  have hmono : Nat.clog 2 n ≤ Nat.clog 2 (n + 1) := Nat.clog_mono_right 2 (by omega)
  omega

/-- Invariant of the default doubling policy along a push sequence: once
the buffer holds `n ≥ 1` elements with capacity `2 ^ clog

 2 n`, every
further push keeps the capacity at the smallest power of two at or above
the length, and each reallocation accounts for one doubling step. -/
theorem pushN_doubling (xs : List α) : ∀ b : Buf α,
    1 ≤ b.len → b.cap = 2 ^ Nat.clog 2 b.len →
    vec_len (pushN (some b) xs).1 = b.len + xs.length ∧
    vec_cap (pushN (some b) xs).1 = 2 ^ Nat.clog 2 (b.len + xs.length) ∧
    Nat.clog 2 b.len + (pushN (some b) xs).2 = Nat.clog 2 (b.len + xs.length) := by
  induction xs with
  | nil =>
    intro b _ h2
    exact ⟨rfl, h2, rfl⟩
  | cons x rest ih =>
    intro b h1 h2
    have hble : b.len ≤ 2 ^ Nat.clog 2 b.len := Nat.le_pow_clog (by omega) b.len
    have harith : b.len + (x :: rest).length = (b.len + 1) + rest.length := by
      simp only [List.length_cons]
      omega
    by_cases hfull : b.cap ≤ b.len
    · -- capacity exhausted: this push doubles the capacity
      have hne : b.len = 2 ^ Nat.clog 2 b.len := by omega
      have hc : vec_cap (some b) = 0 ∨ vec_cap (some b) ≤ vec_len (some b) :=
        Or.inr hfull
      have hgcap : (vec_grow (some b) (b.cap + 1)).cap = 2 ^ (Nat.clog 2 b.len + 1) := by
        rw [vec_grow_cap_succ_some, h2]
        exact vec_new_cap_of_pow _
      have hclog : Nat.clog 2 (b.len + 1) = Nat.clog 2 b.len + 1 := by
        conv_lhs => rw [hne]
        exact clog2_succ_of_pow _
      set b2 : Buf α :=
        ⟨b.len + 1, (vec_grow (some b) (b.cap + 1)).cap,
         fun j => if j = b.len then some x
                  else (vec_grow (some b) (b.cap + 1)).data j⟩ with hb2
      have hb2len : b2.len = b.len + 1 := by rw [hb2]
      have hb2cap : b2.cap = (vec_grow (some b) (b.cap + 1)).cap := by rw [hb2]
      have hpush : (vec_push (some b) x).1 = some b2 := by
        rw [vec_push_eq_pos _ x hc, hb2]
        rfl
      have hrc : (vec_push (some b) x).2 = 1 := by
        rw [vec_push_eq_pos _ x hc]
      have hrec := ih b2 (by rw [hb2len]; omega)
        (by rw [hb2cap, hb2len, hgcap, hclog])
      rw [hb2len] at hrec
      simp only [pushN, hpush, hrc]
      rw [harith]
      exact ⟨hrec.1, hrec.2.1, by omega⟩
    · -- free slot available: no reallocation
      have hc : ¬(vec_cap (some b) = 0 ∨ vec_cap (some b) ≤ vec_len (some b)) := by
        rw [vec_cap_some, vec_len_some]
        omega
      have hclog : Nat.clog 2 (b.len + 1) = Nat.clog 2 b.len :=
        clog2_succ_of_lt b.len h1 (by omega)
      set b2 : Buf α :=
        { b with len := b.len + 1,
                 data := fun j => if j = b.len then some x else b.data j } with hb2
      have hb2len : b2.len = b.len + 1 := by rw [hb2]
      have hb2cap : b2.cap = b.cap := by rw [hb2]
      have hpush : (vec_push (some b) x).1 = some b2 := by
        rw [vec_push_eq_neg _ x hc, hb2]
        rfl
      have hrc : (vec_push (some b) x).2 = 0 := by
        rw [vec_push_eq_neg _ x hc]
      have hrec := ih b2 (by rw [hb2len]; omega)
        (by rw [hb2cap, hb2len, hclog, ← h2])
      rw [hb2len] at hrec
      simp only [pushN, hpush, hrc]
      rw [harith]
      exact ⟨hrec.1, hrec.2.1, by omega⟩

/-! ### The public operations as a state machine (for the invariant) -/

/-- One public mutating operation of the engine. -/
inductive VOp (α : Type) where
  | init (cap : Nat)
  | push (x : α)
  | pop
  | ins (i : Nat) (x : α)
  | del (i : Nat)
  | trim
  | clear

/-- Apply one public operation to a handle. -/
def applyOp (v : Vec α) : VOp α → Vec α
  | .init c => vec_init v c
  | .push x => (vec_push v x).1
  | .pop => vec_pop v
  | .ins i x => vec_ins v i x
  | .del i => vec_del v i
  | .trim => vec_trim v
  | .clear => vec_clear v

/-- Run a sequence of public operations from a starting handle. -/
def runOps (v : Vec α) : List (VOp α) → Vec α
  | [] => v
  | op :: rest => runOps (applyOp v op) rest

/-- The caller-contract side conditions the claim itself imposes on a
sequence: `pop` only on a non-empty buffer, `ins` only at an index
`0 ≤ i ≤ length`.  All other operations (including `init`) are
unrestricted. -/
def legalOp (v : Vec α) : VOp α → Prop
  | .pop => 0 < vec_len v
  | .ins i _ => i ≤ vec_len v
  | _ => True

def legalSeq (v : Vec α) : List (VOp α) → Prop
  | [] => True
  | op :: rest => legalOp v op ∧ legalSeq (applyOp v op) rest

/-- Same side conditions, with `init` additionally restricted to request
at least the current length (the amended claim). -/
def legalOpA (v : Vec α) : VOp α → Prop
  | .pop => 0 < vec_len v
  | .ins i _ => i ≤ vec_len v
  | .init c => vec_len v ≤ c
  | _ => True

def legalSeqA (v : Vec α) : List (VOp α) → Prop
  | [] => True
  | op :: rest => legalOpA v op ∧ legalSeqA (applyOp v op) rest

/-- The invariant exactly as the spec states it: `length ≤ capacity`,
and `capacity = 0` iff the handle is null. -/
def vecInv0 (v : Vec α) : Prop :=
  vec_len v ≤ vec_cap v ∧ (vec_cap v = 0 ↔ v = none)

/-- The amended invariant: `length ≤ capacity`, and a null handle has
capacity 0 (but not conversely: an allocated buffer may have capacity
0, e.g. after `vec_trim` on an allocated empty buffer). -/
def vecInvA (v : Vec α) : Prop :=
  vec_len v ≤ vec_cap v ∧ (v = none → vec_cap v = 0)

theorem vecInvA_none : vecInvA (none : Vec α) :=
  ⟨Nat.le_refl 0, fun _ => rfl⟩

/-- Every single amended-legal operation preserves the amended invariant. -/
theorem applyOp_invA (v : Vec α) (op : VOp α) (hv : vecInvA v)
    (hop : legalOpA v op) : vecInvA (applyOp v op) := by
  cases op with
  | init c =>
    have hop' : vec_len v ≤ c := hop
    show vecInvA (some (vec_grow v c))
    refine ⟨?_, fun h => Option.noConfusion h⟩
    rw [vec_len_some, vec_cap_some, vec_grow_len]
    cases v with
    | none => exact hop'
    | some b =>
      rw [vec_len_some] at hop'
      show vec_len (some b) ≤ (if b.cap < c then vec_new_cap b.cap c else c)
      rw [vec_len_some]
      split
      · have := vec_new_cap_ge b.cap c
        omega
      · exact hop'
  | push x =>
    show vecInvA (vec_push v x).1
    by_cases hc : vec_cap v = 0 ∨ vec_cap v ≤ vec_len v
    · rw [vec_push_eq_pos v x hc]
      refine ⟨?_, fun h => Option.noConfusion h⟩
      have hg := vec_grow_cap_ge v (vec_cap v + 1)
      have h1 : vec_len v ≤ vec_cap v := hv.1
      show vec_len v + 1 ≤ (vec_grow v (vec_cap v + 1)).cap
      omega
    · have hne : v ≠ none := by
        intro h
        subst h
        exact hc (Or.inl rfl)
      obtain ⟨b, rfl⟩ := Option.ne_none_iff_exists'.mp hne
      rw [vec_push_eq_neg _ x hc]
      rw [vec_cap_some, vec_len_some] at hc
      refine ⟨?_, fun h => Option.noConfusion h⟩
      show b.len + 1 ≤ b.cap
      omega
  | pop =>
    cases v with
    | none => exact vecInvA_none
    | some b =>
      have h1 := hv.1
      rw [vec_len_some, vec_cap_some] at h1
      exact ⟨by show b.len - 1 ≤ b.cap; omega, fun h => Option.noConfusion h⟩
  | ins i x =>
    have hop' : i ≤ vec_len v := hop
    show vecInvA (vec_ins v i x)
    cases v with
    | none =>
      refine ⟨?_, fun h => Option.noConfusion h⟩
      show vec_len (vec_ins (none : Vec α) i x) ≤ vec_cap (vec_ins (none : Vec α) i x)
      have hi0 : i = 0 := by
        have := hop'
        simpa [vec_len] using this
      subst hi0
      show 0 + 1 ≤ (vec_grow (none : Vec α) (0 + 1)).cap
      exact vec_grow_cap_ge (none : Vec α) (0 + 1)
    | some b =>
      refine ⟨?_, fun h => Option.noConfusion h⟩
      rw [vec_ins_len, vec_ins_cap]
      exact vec_grow_cap_ge (some b) (b.len + 1)
  | del i =>
    cases v with
    | none => exact vecInvA_none
    | some b =>
      show vecInvA (vec_del (some b) i)
      have h1 := hv.1
      rw [vec_len_some, vec_cap_some] at h1
      by_cases h : i < b.len
      · rw [vec_del_eq_pos b i h]
        exact ⟨by show b.len - 1 ≤ b.cap; omega, fun h => Option.noConfusion h⟩
      · rw [vec_del_eq_neg b i h]
        exact hv
  | trim =>
    cases v with
    | none => exact vecInvA_none
    | some b =>
      show vecInvA (vec_trim (some b))
      by_cases h : b.len < b.cap
      · rw [vec_trim_eq_pos b h]
        exact ⟨Nat.le_refl _, fun h => Option.noConfusion h⟩
      · rw [vec_trim_eq_neg b h]
        exact hv
  | clear =>
    cases v with
    | none => exact vecInvA_none
    | some b =>
      show vecInvA (vec_clear (some b))
      rw [vec_clear_some]
      exact ⟨Nat.zero_le _, fun h => Option.noConfusion h⟩

/-- The amended invariant is inductive along amended-legal sequences. -/
theorem runOps_invA (ops : List (VOp α)) : ∀ v : Vec α, vecInvA v →
    legalSeqA v ops → vecInvA (runOps v ops) := by
  induction ops with
  | nil => intro v hv _; exact hv
  | cons op rest ih =>
    intro v hv hleg
    exact ih (applyOp v op) (applyOp_invA v op hv hleg.1) hleg.2

/-! ### Insertion: full element-level specification (shared helper) -/

theorem ins_spec (b : Buf α) (i : Nat) (x : α) (hi : i ≤ b.len) :
    vec_data (vec_ins (some b) i x) i = some x ∧
    vec_len (vec_ins (some b) i x) = b.len + 1 ∧
    (∀ j, j < i → vec_data (vec_ins (some b) i x) j = b.data j) ∧
    (∀ j, i ≤ j → j < b.len → vec_data (vec_ins (some b) i x) (j + 1) = b.data j) := by
  have hg : b.len + 1 ≤ (vec_grow (some b) (b.len + 1)).cap :=
    vec_grow_cap_ge (some b) (b.len + 1)
  have hgd : ∀ k, k ≤ b.len → (vec_grow (some b) (b.len + 1)).data k = b.data k := by
    intro k hk
    rw [vec_grow_data (some b) (b.len + 1) k (by omega)]
    rfl
  refine ⟨?_, vec_ins_len b i x, ?_, ?_⟩
  · rw [vec_ins_data, if_pos rfl]
  · intro j hj
    rw [vec_ins_data, if_neg (by omega), if_neg (by omega)]
    exact hgd j (by omega)
  · intro j hij hjl
    rw [vec_ins_data, if_neg (by omega), if_pos (show i + 1 ≤ j + 1 ∧
      j + 1 < i + 1 + (b.len - i) by omega)]
    have harith : i + (j + 1 - (i + 1)) = j := by omega
    rw [harith]
    exact hgd j (by omega)

/-! ### Concrete buffers used by witnesses and counterexamples -/

def bufA : Buf Int := ⟨3, 4, fun i => if i < 3 then some ((i : Int) + 1) else none⟩

def bufB : Buf Int := ⟨5, 8, fun i => if i < 5 then some ((i : Int) + 1) else none⟩

def bufC : Buf Int := ⟨2, 5, fun i => if i < 2 then some ((i : Int) + 10) else none⟩

def bufD : Buf Int := ⟨1, 2, fun i => if i = 0 then some 5 else none⟩

def bufE : Buf Int := ⟨2, 2, fun i => if i = 0 then some 4 else if i = 1 then some 6 else none⟩

def bufF : Buf Int := ⟨3, 4, fun i => if i < 3 then some ((i : Int) + 21) else none⟩

def bufG : Buf Int := ⟨1, 3, fun i => if i = 0 then some 42 else none⟩

def bufH : Buf Int := ⟨2, 3, fun i => if i < 2 then some (i : Int) else none⟩

def bufJ : Buf Int := ⟨1, 4, fun i => if i = 0 then some 3 else none⟩

/-! ### Claim C1 -/

/-- Claim C1 is false on the code: `vec_grow` calls `vec_realloc`
unconditionally.  On a buffer of capacity 4 with request 3 ≤ 4 the
capacity changes (to exactly 3), so the call is not a no-op; likewise
`vec_ins` on a buffer with capacity 8 and length 5 (capacity exceeds
length+1 = 6) does not leave the capacity unchanged. -/
theorem grow_noop_counterexample :
    (3 ≤ vec_cap (some bufA) ∧ (vec_grow (some bufA) 3).cap ≠ vec_cap (some bufA)) ∧
    (vec_len (some bufB) + 1 < vec_cap (some bufB) ∧
      vec_cap (vec_ins (some bufB) 0 9) ≠ vec_cap (some bufB)) := by
  refine ⟨⟨by decide, by decide⟩, ⟨by decide, by decide⟩⟩

/-- Claim C1 (amended): when `capacity_of(handle) ≥ r`, `grow_to` keeps
the length and the stored elements at slots below `r`, but it is not a
no-op: it reallocates to capacity exactly `r`.  Consequently `insert_at`
on a buffer whose capacity is at least `length + 1` sets the capacity to
exactly `length + 1` (shrinking it when it exceeded `length + 1`). -/
theorem grow_with_sufficient_capacity {α : Type} :
    (∀ (v : Vec α) (r : Nat), r ≤ vec_cap v →
      (vec_grow v r).cap = r ∧
      (vec_grow v r).len = vec_len v ∧
      (∀ i, i < r → (vec_grow v r).data i = vec_data v i)) ∧
    (∀ (b : Buf α) (i : Nat) (x : α), b.len + 1 ≤ b.cap →
      vec_cap (vec_ins (some b) i x) = b.len + 1) := by
  constructor
  · intro v r h
    have hcap := vec_grow_cap_of_le v r h
    refine ⟨hcap, vec_grow_len v r, ?_⟩
    intro i hi
    exact vec_grow_data v r i (by omega)
  · intro b i x h
    rw [vec_ins_cap]
    exact vec_grow_cap_of_le (some b) (b.len + 1) h

/-- Witness for the amended C1 at a concrete buffer (length 2,
capacity 5): growing to 3 yields capacity exactly 3, and inserting sets
the capacity to length + 1 = 3. -/
theorem grow_with_sufficient_capacity_witness :
    (vec_grow (some bufC) 3).cap = 3 ∧ vec_cap (vec_ins (some bufC) 1 99) = 3 :=
  ⟨(grow_with_sufficient_capacity.1 (some bufC) 3 (by decide)).1,
   grow_with_sufficient_capacity.2 bufC 1 99 (by decide)⟩

/-! ### Claim C2 -/

/-- Claim C2 is false on the code: the legal sequence push, pop, trim
(the pop is on a non-empty buffer) ends in an allocated buffer of
capacity 0, so `capacity = 0` does not imply a null handle. -/
theorem invariant_iff_counterexample :
    legalSeq (none : Vec Int) [VOp.push 1, VOp.pop, VOp.trim] ∧
    ¬ vecInv0 (runOps (none : Vec Int) [VOp.push 1, VOp.pop, VOp.trim]) := by
  constructor
  · exact ⟨trivial,
      (by decide : 0 < vec_len (applyOp (none : Vec Int) (VOp.push 1))),
      trivial, trivial⟩
  · intro h
    have h1 : runOps (none : Vec Int) [VOp.push 1, VOp.pop, VOp.trim] = none :=
      h.2.mp (by decide)
    have h2 : (runOps (none : Vec Int) [VOp.push 1, VOp.pop, VOp.trim]).isSome = true := by
      decide
    rw [h1] at h2
    exact Bool.noConfusion h2

/-- Claim C2 (amended): along every sequence of public operations that
is legal in the claim's sense and whose `init` requests are at least the
current length, every reachable buffer satisfies `length ≤ capacity`,
and a null handle has capacity 0.  (The reverse implication —
capacity 0 only on a null handle — fails: see the counterexample.) -/
theorem reachable_invariant {α : Type} (ops : List (VOp α))
    (h : legalSeqA (none : Vec α) ops) :
    vecInvA (runOps (none : Vec α) ops) :=
  runOps_invA ops none vecInvA_none h

/-- Witness for the amended C2 on the concrete sequence push, del,
trim. -/
theorem reachable_invariant_witness :
    vecInvA (runOps (none : Vec Int) [VOp.push 1, VOp.del 0, VOp.trim]) :=
  reachable_invariant [VOp.push 1, VOp.del 0, VOp.trim] ⟨trivial, trivial, trivial, trivial⟩

/-! ### Claim C3 -/

/-- Claim C3 is false on the code: growing from the null handle never
consults the growth strategy (`vec_grow` computes the doubled capacity
only under `if (v)`), so `vec_init(NULL, 3)` yields capacity exactly 3,
not the claimed power of two 4. -/
theorem grow_from_null_counterexample :
    vec_cap (vec_init (none : Vec Int) 3) = 3 ∧
    vec_cap (vec_init (none : Vec Int) 3) ≠ 4 := by
  refine ⟨by decide, by decide⟩

/-- Claim C3 (amended): for every request `r ≥ 1`, `grow_to(null, r)`
invokes the reallocation primitive with a null allocation-origin (a
fresh allocation: no element contents are carried over) and sets the
capacity to exactly `r` and the length to 0; the growth strategy is not
consulted for a null handle, so init with requested capacity 3 yields
capacity 3. -/
theorem grow_from_null_exact {α : Type} (r : Nat) (_h : 1 ≤ r) :
    (vec_grow (none : Vec α) r).cap = r ∧
    (vec_grow (none : Vec α) r).len = 0 ∧
    (∀ i, (vec_grow (none : Vec α) r).data i = none) := by
  refine ⟨rfl, rfl, ?_⟩
  intro i
  show (if i < r then vec_data (none : Vec α) i else none) = none
  split <;> rfl

/-- Witness for the amended C3 at request 5. -/
theorem grow_from_null_exact_witness :
    (vec_grow (none : Vec Int) 5).cap = 5 ∧ (vec_grow (none : Vec Int) 5).len = 0 :=
  ⟨(grow_from_null_exact 5 (by decide)).1, (grow_from_null_exact 5 (by decide)).2.1⟩

/-! ### Claim C4 -/

/-- Claim C4: for every buffer (null included) satisfying the
length/capacity invariant, `vec_push(v, x)` appends `x`: the new length
is the old length plus 1, the slot at the old length holds `x`, all
previously live slots are unchanged, and the growth routine (hence
`vec_realloc`) is invoked exactly when the old capacity is 0 or does not
exceed the old length. -/
theorem push_appends (v : Vec α) (x : α) (hinv : vec_len v ≤ vec_cap v) :
    vec_len (vec_push v x).1 = vec_len v + 1 ∧
    vec_data (vec_push v x).1 (vec_len v) = some x ∧
    (∀ i, i < vec_len v → vec_data (vec_push v x).1 i = vec_data v i) ∧
    (vec_push v x).2 = (if vec_cap v = 0 ∨ vec_cap v ≤ vec_len v then 1 else 0) :=
  ⟨(push_spec v x hinv).1, (push_spec v x hinv).2.1,
   (push_spec v x hinv).2.2, push_rc v x⟩

/-- Witness for C4: pushing 7 onto a buffer of length 1 and capacity 2
appends without reallocating. -/
theorem push_appends_witness :
    vec_len (vec_push (some bufD) 7).1 = 2 ∧
    vec_data (vec_push (some bufD) 7).1 1 = some 7 ∧
    (vec_push (some bufD) 7).2 = 0 := by
  have h := push_appends (some bufD) 7 (by decide)
  exact ⟨h.1, h.2.1, by rw [h.2.2.2]; decide⟩

/-! ### Claim C5 -/

/-- Claim C5: for every non-null buffer and index `0 ≤ i ≤ length`,
`vec_ins(v, i, x)` stores `x` at slot `i`, grows the length by exactly
1, leaves the slots below `i` unchanged, and moves each element formerly
at slots `i .. length-1` one slot forward. -/
theorem ins_at_index (b : Buf α) (i : Nat) (x : α) (hi : i ≤ b.len) :
    vec_data (vec_ins (some b) i x) i = some x ∧
    vec_len (vec_ins (some b) i x) = b.len + 1 ∧
    (∀ j, j < i → vec_data (vec_ins (some b) i x) j = b.data j) ∧
    (∀ j, i ≤ j → j < b.len → vec_data (vec_ins (some b) i x) (j + 1) = b.data j) :=
  ins_spec b i x hi

/-- Witness for C5: inserting 5 at index 1 of the two-element buffer
[4, 6]. -/
theorem ins_at_index_witness :
    vec_data (vec_ins (some bufE) 1 5) 1 = some 5 ∧
    vec_len (vec_ins (some bufE) 1 5) = 3 ∧
    vec_data (vec_ins (some bufE) 1 5) 0 = some 4 ∧
    vec_data (vec_ins (some bufE) 1 5) 2 = some 6 := by
  have h := ins_at_index bufE 1 5 (by decide)
  refine ⟨h.1, h.2.1, ?_, ?_⟩
  · rw [h.2.2.1 0 (by decide)]
    decide
  · rw [h.2.2.2 1 (by decide) (by decide)]
    decide

/-! ### Claim C6 -/

/-- Claim C6: `vec_del(v, i)` with `i < length` removes exactly one
element — the length drops by 1, slots below `i` are unchanged and each
element after `i` shifts down one slot — and with `i ≥ length`
(including on a null handle) it is a no-op returning the buffer
unchanged. -/
theorem del_removes (v : Vec α) (i : Nat) :
    (i < vec_len v →
      vec_len (vec_del v i) = vec_len v - 1 ∧
      (∀ j, j < i → vec_data (vec_del v i) j = vec_data v j) ∧
      (∀ j, i ≤ j → j + 1 < vec_len v → vec_data (vec_del v i) j = vec_data v (j + 1))) ∧
    (vec_len v ≤ i → vec_del v i = v) := by
  cases v with
  | none =>
    constructor
    · intro h
      have h0 : i < 0 := h
      omega
    · intro _
      rfl
  | some b =>
    constructor
    · intro h
      have h' : i < b.len := h
      rw [vec_del_eq_pos b i h']
      refine ⟨rfl, ?_, ?_⟩
      · intro j hj
        show (if i ≤ j ∧ j < i + (b.len - i - 1) then b.data (i + 1 + (j - i))
              else b.data j) = vec_data (some b) j
        rw [if_neg (by omega)]
        rfl
      · intro j hij hjl
        have hjl' : j + 1 < b.len := hjl
        show (if i ≤ j ∧ j < i + (b.len - i - 1) then b.data (i + 1 + (j - i))
              else b.data j) = vec_data (some b) (j + 1)
        rw [if_pos (show i ≤ j ∧ j < i + (b.len - i - 1) by omega)]
        have harith : i + 1 + (j - i) = j + 1 := by omega
        rw [harith]
        rfl
    · intro h
      have h' : ¬ i < b.len := by
        have hb : b.len ≤ i := h
        omega
      exact vec_del_eq_neg b i h'

/-- Witness for C6: deleting index 1 of the three-element buffer
[21, 22, 23], and the no-op case at index 5. -/
theorem del_removes_witness :
    vec_len (vec_del (some bufF) 1) = 2 ∧
    vec_data (vec_del (some bufF) 1) 1 = some 23 ∧
    vec_data (vec_del (some bufF) 1) 0 = some 21 ∧
    vec_del (some bufF) 5 = some bufF := by
  have h := (del_removes (some bufF) 1).1 (by decide)
  refine ⟨h.1, ?_, ?_, (del_removes (some bufF) 5).2 (by decide)⟩
  · rw [h.2.2 1 (by decide) (by decide)]
    decide
  · rw [h.2.1 0 (by decide)]
    decide

/-! ### Claim C7 -/

/-- Claim C7: for every buffer satisfying the length/capacity invariant,
`vec_trim` makes the capacity equal to the length while keeping the
length and the live elements, and it is a no-op (the buffer is returned
unchanged) when capacity already equals length.  In particular, after
popping down to length L, trimming yields capacity exactly L. -/
theorem trim_to_length (v : Vec α) (hinv : vec_len v ≤ vec_cap v) :
    vec_cap (vec_trim v) = vec_len v ∧
    vec_len (vec_trim v) = vec_len v ∧
    (∀ i, i < vec_len v → vec_data (vec_trim v) i = vec_data v i) ∧
    (vec_cap v = vec_len v → vec_trim v = v) := by
  cases v with
  | none =>
    exact ⟨rfl, rfl, fun i hi => absurd hi (Nat.not_lt_zero i), fun _ => rfl⟩
  | some b =>
    by_cases h : b.len < b.cap
    · rw [vec_trim_eq_pos b h]
      refine ⟨rfl, rfl, ?_, ?_⟩
      · intro i hi
        show (if i < b.len then vec_data (some b) i else none) = vec_data (some b) i
        rw [if_pos (show i < b.len from hi)]
      · intro he
        have he' : b.cap = b.len := he
        omega
    · rw [vec_trim_eq_neg b h]
      have h1 : b.len ≤ b.cap := hinv
      refine ⟨?_, rfl, fun i _ => rfl, fun _ => rfl⟩
      show b.cap = b.len
      omega

/-- Witness for C7: trimming a buffer of length 1 and capacity 3 yields
capacity 1 with the element kept. -/
theorem trim_to_length_witness :
    vec_cap (vec_trim (some bufG)) = 1 ∧
    vec_data (vec_trim (some bufG)) 0 = some 42 := by
  have h := trim_to_length (some bufG) (by decide)
  refine ⟨h.1, ?_⟩
  rw [h.2.2.1 0 (by decide)]
  decide

/-! ### Claim C8 -/

/-- Claim C8: `vec_clear` on an allocated buffer sets the length to 0
and keeps the capacity, and any subsequent sequence of at most
pre-clear-capacity pushes performs no reallocation (so the backing block
is never replaced) and keeps the capacity throughout. -/
theorem clear_then_push_reuses (b : Buf α) (xs : List α) (hxs : xs.length ≤ b.cap) :
    vec_len (vec_clear (some b)) = 0 ∧
    vec_cap (vec_clear (some b)) = b.cap ∧
    (pushN (vec_clear (some b)) xs).2 = 0 ∧
    vec_cap (pushN (vec_clear (some b)) xs).1 = b.cap ∧
    vec_len (pushN (vec_clear (some b)) xs).1 = xs.length := by
  have h := pushN_stable xs { b with len := 0 } (by dsimp only; omega)
  rw [vec_clear_some]
  refine ⟨rfl, rfl, h.1, h.2.1, ?_⟩
  rw [h.2.2]
  dsimp only
  omega

/-- Witness for C8: clearing a buffer of capacity 3 and pushing three
values triggers no reallocation and keeps capacity 3. -/
theorem clear_then_push_reuses_witness :
    (pushN (vec_clear (some bufH)) [7, 8, 9]).2 = 0 ∧
    vec_cap (pushN (vec_clear (some bufH)) [7, 8, 9]).1 = 3 :=
  ⟨(clear_then_push_reuses bufH [7, 8, 9] (by decide)).2.2.1,
   (clear_then_push_reuses bufH [7, 8, 9] (by decide)).2.2.2.1⟩

/-! ### Claim C9 -/

/-- Claim C9: pushing N ≥ 1 elements starting from the null handle
under the default doubling strategy yields final capacity
`2 ^ clog2 N`, which is the smallest power of two at or above N, and
performs exactly `1 + clog2 N` reallocations in total — O(log N). -/
theorem push_doubling_from_null (x : α) (xs : List α) :
    vec_len (pushN (none : Vec α) (x :: xs)).1 = (x :: xs).length ∧
    vec_cap (pushN (none : Vec α) (x :: xs)).1 = 2 ^ Nat.clog 2 (x :: xs).length ∧
    (x :: xs).length ≤ 2 ^ Nat.clog 2 (x :: xs).length ∧
    (∀ k, (x :: xs).length ≤ 2 ^ k → 2 ^ Nat.clog 2 (x :: xs).length ≤ 2 ^ k) ∧
    (pushN (none : Vec α) (x :: xs)).2 = 1 + Nat.clog 2 (x :: xs).length := by
  have hL : (x :: xs).length = 1 + xs.length := by
    rw [List.length_cons, Nat.add_comm]
  rw [hL]
  set b1 : Buf α := ⟨1, 1, fun j => if j = 0 then some x else if j < 1 then none else none⟩
    with hb1
  have hpush : vec_push (none : Vec α) x = (some b1, 1) := by
    rw [hb1]
    rfl
  have h1len : b1.len = 1 := by rw [hb1]
  have h1cap : b1.cap = 2 ^ Nat.clog 2 b1.len := by
    rw [hb1]
    show (1:Nat) = 2 ^ Nat.clog 2 1
    rw [Nat.clog_one_right]
    rfl
  have hrec := pushN_doubling xs b1 (by rw [h1len]) h1cap
  rw [h1len] at hrec
  have hc1 : Nat.clog 2 1 = 0 := Nat.clog_one_right 2
  rw [hc1] at hrec
  simp only [pushN, hpush]
  refine ⟨hrec.1, hrec.2.1, ?_, ?_, ?_⟩
  · exact Nat.le_pow_clog (by omega) (1 + xs.length)
  · intro k hk
    exact Nat.pow_le_pow_right (by omega) ((Nat.le_pow_iff_clog_le (by omega)).mp hk)
  · have h3 := hrec.2.2
    omega

/-- Witness for C9: pushing the three elements 5, 6, 7 from the null
handle gives length 3, capacity 4 = 2^2 (the smallest power of two at or
above 3), and 3 = 1 + clog2 3 reallocations. -/
theorem push_doubling_from_null_witness :
    vec_len (pushN (none : Vec Int) [5, 6, 7]).1 = 3 ∧
    vec_cap (pushN (none : Vec Int) [5, 6, 7]).1 = 2 ^ Nat.clog 2 3 ∧
    (pushN (none : Vec Int) [5, 6, 7]).2 = 1 + Nat.clog 2 3 ∧
    Nat.clog 2 3 = 2 := by
  have h := push_doubling_from_null (5 : Int) [6, 7]
  have hc : Nat.clog 2 3 = 2 := by
    have h1 : Nat.clog 2 3 ≤ 2 := (Nat.le_pow_iff_clog_le (by omega)).mp (by omega)
    have h2 : 1 < Nat.clog 2 3 := (Nat.pow_lt_iff_lt_clog (by omega)).mp (by omega)
    omega
  exact ⟨h.1, h.2.1, h.2.2.2.2, hc⟩

/-! ### Claim C10 -/

/-- Claim C10: inserting at the end (`index = length`) produces the same
live element sequence and the same new length as pushing the same value;
the two results may differ only in capacity. -/
theorem ins_at_end_matches_push (b : Buf α) (x : α) (hinv : b.len ≤ b.cap) :
    vec_elems (vec_ins (some b) b.len x) = vec_elems (vec_push (some b) x).1 ∧
    vec_len (vec_ins (some b) b.len x) = b.len + 1 ∧
    vec_len (vec_push (some b) x).1 = b.len + 1 := by
  have hp := push_spec (some b) x hinv
  have hi := ins_spec b b.len x (Nat.le_refl b.len)
  have hlp : vec_len (vec_push (some b) x).1 = b.len + 1 := hp.1
  refine ⟨?_, hi.2.1, hlp⟩
  show (List.range (vec_len (vec_ins (some b) b.len x))).map
        (vec_data (vec_ins (some b) b.len x)) =
      (List.range (vec_len (vec_push (some b) x).1)).map
        (vec_data (vec_push (some b) x).1)
  rw [hi.2.1, hlp]
  apply List.map_congr_left
  intro a ha
  have ha' : a < b.len + 1 := List.mem_range.mp ha
  by_cases hab : a = b.len
  · subst hab
    rw [hi.1]
    exact hp.2.1.symm
  · have hal : a < b.len := by omega
    rw [hi.2.2.1 a hal, hp.2.2 a hal]
    rfl

/-- Witness for C10: on the one-element buffer [3] with spare capacity,
inserting 8 at index 1 and pushing 8 agree on the live elements. -/
theorem ins_at_end_matches_push_witness :
    vec_elems (vec_ins (some bufJ) 1 8) = vec_elems (vec_push (some bufJ) 8).1 ∧
    vec_len (vec_ins (some bufJ) 1 8) = 2 :=
  ⟨(ins_at_end_matches_push bufJ 8 (by decide)).1,
   (ins_at_end_matches_push bufJ 8 (by decide)).2.1⟩
